import Mathlib

/-!
Verification of the crossword CSP solver (`generate.py`).

The solver (`CrosswordCreator` in `generate.py`) is embedded shallowly below.
The grid model (`crossword.py`, imported by `generate.py` via
`from crossword import *`) is not part of the sources; its data model
(variables, overlaps, neighbors) is modelled from the specification's
description of the Grid Model collaborator.

Python sets are modelled as Lean lists (iteration order made explicit),
Python dicts as association lists, mutation as explicit state passing,
the unbounded `while`/recursion as fuel-indexed recursion, and Python
string indexing `w[i]` as `List.getD w i '?'` (the claims that depend on
indexing carry the in-bounds provisos under which the two agree).
-/

namespace AICrossword

/-- Modelled from the spec: word slot direction, from the Grid Model
(`crossword.py`, not under the sources): `Variable.ACROSS` / `Variable.DOWN`. -/
inductive Direction where
  | across
  | down
deriving DecidableEq, Repr

/-- Modelled from the spec: a crossword slot ("Variable") from the Grid Model
(`crossword.py`, not under the sources): starting row `i`, starting column
`j`, a direction, and a positive word length; equality is componentwise. -/
structure Slot where
  i : Nat
  j : Nat
  direction : Direction
  length : Nat
deriving DecidableEq, Repr

/-- A word is a list of characters (Python string). -/
abbrev Word := List Char

/-- Modelled from the spec: the Grid Model data consumed by the solver:
the list of variables (a Python set, its iteration order made explicit),
the word list, and for every ordered pair of distinct variables either
`none` (no shared cell) or the pair of intra-word indices at which the
two slots overlap. -/
structure Crossword where
  vars : List Slot
  words : List Word
  overlaps : Slot → Slot → Option (Nat × Nat)

/-- Modelled from the spec: `crossword.neighbors(v)`: the variables other
than `v` that have a defined overlap with `v`. -/
def neighbors (c : Crossword) (v : Slot) : List Slot :=
  c.vars.filter (fun n => n ≠ v ∧ (c.overlaps v n).isSome)

/-- `self.domains`: a mapping from each variable to its current candidate
words. -/
abbrev Domains := Slot → List Word

/-- Replace the domain of one variable (a dict entry update). -/
def updateDom (D : Domains) (v : Slot) (d : List Word) : Domains :=
  fun u => if u = v then d else D u

/-- `self.domains = { var: self.crossword.words.copy() for var in ... }`
(`CrosswordCreator.__init__`). -/
def initialDomains (c : Crossword) : Domains := fun _ => c.words

/-- `CrosswordCreator.enforce_node_consistency`: for each variable remove
every word whose length differs from the variable's length. -/
def enforce_node_consistency (c : Crossword) (D : Domains) : Domains :=
  c.vars.foldl
    (fun D var => updateDom D var ((D var).filter (fun w => w.length == var.length))) D

/-- `CrosswordCreator.revise(x, y)`: remove from `domains[x]` every word
with no possible corresponding value in `domains[y]`; report whether a
removal occurred.  Returns the flag and the updated domains. -/
def revise (c : Crossword) (x y : Slot) (D : Domains) : Bool × Domains :=
  if x = y then (false, D)
  else
    match c.overlaps x y with
    | none => (false, D)
    | some o =>
      let hasMatch : Word → Bool :=
        fun w => (D y).any (fun wy => wy.getD o.2 '?' == w.getD o.1 '?')
      let to_remove := (D x).filter (fun w => !hasMatch w)
      (!to_remove.isEmpty, updateDom D x ((D x).filter (fun w => hasMatch w)))

/-- The guard `self.domains[x] == 0` at line 161 of `generate.py`: in
Python a `set` never compares equal to the integer `0`, so the condition
is constantly false and the early `return False` is unreachable. -/
def domainEqZero (_ : List Word) : Bool := false

/-- Lines 163-165 of `ac3`: `for neighbor in self.crossword.neighbors(var)`
append `(x, neighbor)` when `neighbor != y` and the arc is not queued.
Note the loop ranges over `staleNbrs`, the neighbors of the *stale* loop
variable `var` left over from the initialization loop, not of `x`. -/
def enqueue_arcs (x y : Slot) (staleNbrs : List Slot)
    (arcs : List (Slot × Slot)) : List (Slot × Slot) :=
  staleNbrs.foldl
    (fun arcs n => if n ≠ y ∧ (x, n) ∉ arcs then arcs ++ [(x, n)] else arcs) arcs

/-- Lines 151-156 of `ac3`: the initial worklist built when `arcs is None`:
for each variable and each of its neighbors, append `(var, neighbor)`
unless `(neighbor, var)` is already present. -/
def initial_arcs (c : Crossword) : List (Slot × Slot) :=
  c.vars.foldl
    (fun arcs v =>
      (neighbors c v).foldl
        (fun arcs n => if (n, v) ∉ arcs then arcs ++ [(v, n)] else arcs) arcs)
    []

/-- One step of the worklist initialization of `ac3`: append the arc `p`
unless its reverse is already queued. -/
def init_step (arcs : List (Slot × Slot)) (p : Slot × Slot) :
    List (Slot × Slot) :=
  if (p.2, p.1) ∉ arcs then arcs ++ [p] else arcs

/-- The ordered `(variable, neighbor)` pairs scanned by the worklist
initialization of `ac3`, in scan order. -/
def arc_pairs (c : Crossword) : List (Slot × Slot) :=
  c.vars.flatMap (fun v => (neighbors c v).map (fun n => (v, n)))

/-- The `while len(arcs) > 0` loop of `ac3`, fuel-indexed.  `staleNbrs` is
the neighbor list of the stale variable `var` used by the re-enqueue loop. -/
def ac3_loop (c : Crossword) (staleNbrs : List Slot) :
    Nat → List (Slot × Slot) → Domains → Bool × Domains
  | 0, _, D => (true, D)
  | fuel + 1, arcs, D =>
    match arcs with
    | [] => (true, D)
    | (x, y) :: rest =>
      let r := revise c x y D
      if r.1 then
        if domainEqZero (r.2 x) then (false, r.2)
        else ac3_loop c staleNbrs fuel (enqueue_arcs x y staleNbrs rest) r.2
      else ac3_loop c staleNbrs fuel rest r.2

/-- `CrosswordCreator.ac3()` as called from `solve` (default `arcs=None`).
After the initialization loop the Python name `var` denotes the last
variable iterated, so the re-enqueue loop ranges over that variable's
neighbors. -/
def ac3 (c : Crossword) (fuel : Nat) (D : Domains) : Bool × Domains :=
  let arcs := initial_arcs c
  let staleNbrs :=
    match c.vars.getLast? with
    | some v => neighbors c v
    | none => []
  ac3_loop c staleNbrs fuel arcs D

/-- A partial assignment: a Python dict from variables to words,
as an association list (reachable assignments have distinct keys). -/
abbrev Assignment := List (Slot × Word)

/-- The keys of an assignment. -/
def keys (a : Assignment) : List Slot := a.map Prod.fst

/-- Dict lookup `assignment[var]`. -/
def lookup (a : Assignment) (v : Slot) : Option Word :=
  (a.find? (fun p => p.1 == v)).map Prod.snd

/-- Dict insertion `assignment[var] = value` for a fresh key. -/
def aInsert (v : Slot) (w : Word) (a : Assignment) : Assignment := (v, w) :: a

/-- Dict deletion `del assignment[var]`. -/
def eraseKey (v : Slot) (a : Assignment) : Assignment :=
  a.filter (fun p => !(p.1 == v))

/-- `CrosswordCreator.assignment_complete`: every crossword variable has
an entry. -/
def assignment_complete (c : Crossword) (a : Assignment) : Bool :=
  c.vars.all (fun v => decide (v ∈ keys a))

/-- The body of `CrosswordCreator.consistent`: traverse the entries,
checking the length constraint, that the word was not already used
(`words` accumulator), and agreement with every assigned neighbor at the
overlap indices.  (`n ∈ neighbors` guarantees the overlap is defined, so
the `none` overlap branch is unreachable.) -/
def consistent_go (c : Crossword) (a : Assignment) :
    List (Slot × Word) → List Word → Bool
  | [], _ => true
  | (var, w) :: rest, ws =>
    if !(var.length == w.length) then false
    else if w ∈ ws then false
    else if (neighbors c var).all (fun n =>
        match lookup a n with
        | none => true
        | some wn =>
          match c.overlaps var n with
          | some o => w.getD o.1 '?' == wn.getD o.2 '?'
          | none => true)
    then consistent_go c a rest (ws ++ [w])
    else false

/-- `CrosswordCreator.consistent(assignment)`. -/
def consistent (c : Crossword) (a : Assignment) : Bool :=
  consistent_go c a a []

/-- The rule-out count computed by `order_domain_values` for one candidate
word: over the unassigned neighbors of `var`, the number of neighbor-domain
words that disagree with the candidate at the overlap indices. -/
def rule_out_count (c : Crossword) (D : Domains) (a : Assignment)
    (var : Slot) (w : Word) : Nat :=
  (neighbors c var).foldl
    (fun cnt n =>
      if n ∈ keys a then cnt
      else
        match c.overlaps var n with
        | some o =>
          cnt + (D n).countP (fun nw => !(w.getD o.1 '?' == nw.getD o.2 '?'))
        | none => cnt)
    0

/-- `CrosswordCreator.order_domain_values`: pair each domain word with its
rule-out count, sort ascending by count, and return the words.  Python's
`list.sort(key=...)` is a stable ascending sort; any stable sort by the
same key computes the same list, and it is modelled here by the stable
`List.insertionSort`. -/
def order_domain_values (c : Crossword) (D : Domains) (var : Slot)
    (a : Assignment) : List Word :=
  let result := (D var).map (fun w => (w, rule_out_count c D a var w))
  (List.insertionSort (fun p q => p.2 ≤ q.2) result).map Prod.fst

/-- The first loop of `select_unassigned_variable`: track the minimum
domain size seen (`min`, initialized to `1000000`) and the list of
unassigned variables achieving it. -/
def mrv_loop (D : Domains) (a : Assignment) :
    List Slot → Nat → List Slot → Nat × List Slot
  | [], m, acc => (m, acc)
  | v :: rest, m, acc =>
    if v ∈ keys a then mrv_loop D a rest m acc
    else if (D v).length < m then mrv_loop D a rest (D v).length [v]
    else if (D v).length = m then mrv_loop D a rest m (acc ++ [v])
    else mrv_loop D a rest m acc

/-- The second loop of `select_unassigned_variable`: among the tied
variables pick the first one with strictly fewest neighbors (`min_n`
initialized to `1000000`, `min_var` to `None`). -/
def degree_loop (c : Crossword) :
    List Slot → Nat → Option Slot → Option Slot
  | [], _, best => best
  | v :: rest, minN, best =>
    if (neighbors c v).length < minN then
      degree_loop c rest (neighbors c v).length (some v)
    else degree_loop c rest minN best

/-- `CrosswordCreator.select_unassigned_variable`: minimum-remaining-values
with a fewest-neighbors tie-break; returns `min_domain_vars[0]` directly
when the tie set is a singleton. -/
def select_unassigned_variable (c : Crossword) (D : Domains)
    (a : Assignment) : Option Slot :=
  let r := mrv_loop D a c.vars 1000000 []
  if r.2.length = 1 then r.2.head?
  else degree_loop c r.2 1000000 none

/-- The `for value in self.order_domain_values(var, assignment)` loop of
`backtrack`, with the recursive call abstracted as `bt`.  The pair returned
is (the Python return value, the state of the shared `assignment` dict when
the call returns). -/
def bt_loop (c : Crossword) (bt : Assignment → Option Assignment × Assignment)
    (var : Slot) : List Word → Assignment → Option Assignment × Assignment
  | [], a => (none, a)
  | value :: rest, a =>
    let a1 := aInsert var value a
    if consistent c a1 then
      match bt a1 with
      | (some r, s) => (some r, s)
      | (none, s) => bt_loop c bt var rest (eraseKey var s)
    else bt_loop c bt var rest (eraseKey var a1)

/-- `CrosswordCreator.backtrack`, fuel-indexed.  When
`select_unassigned_variable` returns no variable the Python code would
raise (`self.domains[None]`); that branch is unreachable on the instances
considered and is modelled as a failure that leaves the dict untouched. -/
def backtrack (c : Crossword) (D : Domains) :
    Nat → Assignment → Option Assignment × Assignment
  | 0, a => (none, a)
  | fuel + 1, a =>
    if assignment_complete c a then (some a, a)
    else
      match select_unassigned_variable c D a with
      | none => (none, a)
      | some var =>
        bt_loop c (backtrack c D fuel) var (order_domain_values c D var a) a

/-- `CrosswordCreator.solve`: enforce node consistency, run `ac3` (its
boolean result is discarded, as in the source), then backtrack from the
empty assignment. -/
def solve (c : Crossword) (fuelA fuelB : Nat) :
    Option Assignment × Assignment :=
  let D1 := enforce_node_consistency c (initialDomains c)
  let D2 := (ac3 c fuelA D1).2
  backtrack c D2 fuelB []

/-! ### Specification-level predicates -/

/-- Spec notion of support: `w` (a candidate for `x`) is supported toward
`y` when either the two variables do not overlap or some word of `D y`
agrees with `w` at the overlap indices. -/
def supportedB (c : Crossword) (D : Domains) (x y : Slot) (w : Word) : Bool :=
  match c.overlaps x y with
  | some o => (D y).any (fun wy => wy.getD o.2 '?' == w.getD o.1 '?')
  | none => true

/-- Spec notion of full arc consistency: for every pair of neighboring
variables `(x, y)` every word remaining in `D x` has a supporting word in
`D y`. -/
def ArcConsistentAll (c : Crossword) (D : Domains) : Prop :=
  ∀ x ∈ c.vars, ∀ y ∈ neighbors c x, ∀ w ∈ D x, supportedB c D x y w = true

instance (c : Crossword) (D : Domains) : Decidable (ArcConsistentAll c D) := by
  unfold ArcConsistentAll; infer_instance

/-- Spec notion of a complete, globally-consistent assignment over the
initial domains: every variable receives a word from the word list whose
length matches, distinct variables receive distinct words, and every
defined overlap agrees. -/
def SolutionFor (c : Crossword) (f : Slot → Word) : Prop :=
  (∀ v ∈ c.vars, f v ∈ c.words) ∧
  (∀ v ∈ c.vars, (f v).length = v.length) ∧
  (∀ v1 ∈ c.vars, ∀ v2 ∈ c.vars, v1 ≠ v2 → f v1 ≠ f v2) ∧
  (∀ v1 ∈ c.vars, ∀ v2 ∈ c.vars, ∀ o : Nat × Nat, c.overlaps v1 v2 = some o →
    (f v1).getD o.1 '?' = (f v2).getD o.2 '?')

instance (c : Crossword) (f : Slot → Word) : Decidable (SolutionFor c f) := by
  unfold SolutionFor; infer_instance

/-! ### Concrete instances used as witnesses and counterexamples -/

/-- The word "cat". -/
def cat : Word := ['c', 'a', 't']

/-- The word "dog". -/
def dog : Word := ['d', 'o', 'g']

/-- The word "bird". -/
def bird : Word := ['b', 'i', 'r', 'd']

/-- The word "crow". -/
def crow : Word := ['c', 'r', 'o', 'w']

/-- A length-3 across slot starting at cell (0,0). -/
def vA3 : Slot := ⟨0, 0, .across, 3⟩

/-- A length-4 down slot starting at cell (0,0); shares cell (0,0) with
`vA3`: overlap indices (0,0). -/
def vD4 : Slot := ⟨0, 0, .down, 4⟩

/-- A length-4 down slot starting at cell (0,1); shares cell (0,1) with
`vA3`: overlap indices (1,0) from `vA3`'s side. -/
def vD4b : Slot := ⟨0, 1, .down, 4⟩

/-- A crossword with the single slot `vA3` and word list {cat}. -/
def cw1 : Crossword := ⟨[vA3], [cat], fun _ _ => none⟩

/-- Overlaps of the two crossing slots `vA3`, `vD4`. -/
def ov2 : Slot → Slot → Option (Nat × Nat) := fun x y =>
  if x = vA3 ∧ y = vD4 then some (0, 0)
  else if x = vD4 ∧ y = vA3 then some (0, 0)
  else none

/-- Two crossing slots with words {cat, bird}: after node consistency the
domains are {cat} and {bird}, and revising `vA3` against `vD4` empties
`vA3`'s domain ('c' ≠ 'b'). -/
def cw2 : Crossword := ⟨[vA3, vD4], [cat, bird], ov2⟩

/-- The domains of `cw2` after node consistency. -/
def cw2D : Domains := enforce_node_consistency cw2 (initialDomains cw2)

/-- Two crossing slots with words {cat, crow, bird}: after node consistency
the domains are {cat} and {crow, bird}; "cat" is supported by "crow", but
"bird" has no support toward `vA3`. -/
def cw3 : Crossword := ⟨[vA3, vD4], [cat, crow, bird], ov2⟩

/-- The domains of `cw3` after node consistency. -/
def cw3D : Domains := enforce_node_consistency cw3 (initialDomains cw3)

/-- Overlaps of the three slots of `cw5`. -/
def ov5 : Slot → Slot → Option (Nat × Nat) := fun x y =>
  if x = vA3 ∧ y = vD4 then some (0, 0)
  else if x = vD4 ∧ y = vA3 then some (0, 0)
  else if x = vA3 ∧ y = vD4b then some (1, 0)
  else if x = vD4b ∧ y = vA3 then some (0, 1)
  else none

/-- Three slots: `vA3` crosses both `vD4` and `vD4b`; words {cat, dog,
bird}.  The last variable in iteration order is `vD4b`, whose only
neighbor is `vA3`. -/
def cw5 : Crossword := ⟨[vA3, vD4, vD4b], [cat, dog, bird], ov5⟩

/-- The domains of `cw5` after node consistency. -/
def cw5D : Domains := enforce_node_consistency cw5 (initialDomains cw5)

/-- The word "bat". -/
def bat : Word := ['b', 'a', 't']

/-- Like `cw5` but with the extra word "bat": revising `(vA3, vD4)`
removes "cat" and "dog" but keeps "bat" (its 'b' matches "bird"), so the
revision succeeds with `vA3`'s domain left non-empty. -/
def cw5b : Crossword := ⟨[vA3, vD4, vD4b], [cat, dog, bat, bird], ov5⟩

/-- The domains of `cw5b` after node consistency. -/
def cw5bD : Domains := enforce_node_consistency cw5b (initialDomains cw5b)

/-- Two crossing slots with words {cat, crow}: solvable (cat/crow agree on
'c' at the shared cell). -/
def cw4 : Crossword := ⟨[vA3, vD4], [cat, crow], ov2⟩

/-- Single slot of length 3 with domain {bird}: every candidate fails the
length check in `consistent`, so `backtrack` fails on every path. -/
def cwBad : Crossword := ⟨[vA3], [bird], fun _ _ => none⟩

/-- Domains assigning every slot a domain of 1000001 identical words,
exceeding the `min = 1000000` sentinel of `select_unassigned_variable`. -/
def bigD : Domains := fun _ => List.replicate 1000001 ['a']

/-! ### Theorems -/

/-- C2: the claim says `ac3` returns `False` when a revision empties a
domain.  On `cw2` the first (and only initial) arc `(vA3, vD4)` is revised,
the revision empties `domains[vA3]` (which was the non-empty {cat}), yet
`ac3` returns `True`: the guard compares the domain *set* with the integer
`0`, which in Python is always false, so the failure branch is
unreachable. -/
theorem ac3_true_despite_empty_domain :
    (ac3 cw2 10 cw2D).1 = true ∧ (ac3 cw2 10 cw2D).2 vA3 = [] ∧
      cw2D vA3 = [cat] ∧ (revise cw2 vA3 vD4 cw2D).1 = true := by decide

/-- C3: the claim says that whenever `ac3` (after node consistency, with
the default worklist) returns `True`, the resulting domains are fully arc
consistent.  On `cw3` it returns `True`, yet the word "bird" remains in
`domains[vD4]` with no supporting word in `domains[vA3]` at the overlap:
the initial worklist contains only one direction of each overlapping pair,
and the arc `(vD4, vA3)` is never revised. -/
theorem ac3_true_but_not_arc_consistent :
    (ac3 cw3 10 cw3D).1 = true ∧
      ¬ ArcConsistentAll cw3 (ac3 cw3 10 cw3D).2 ∧
      bird ∈ (ac3 cw3 10 cw3D).2 vD4 ∧
      supportedB cw3 (ac3 cw3 10 cw3D).2 vD4 vA3 bird = false := by decide

/-- C5: the claim says that when processing a popped arc `(x, y)` causes a
revision and `x`'s domain is not empty, the arcs re-enqueued are exactly
the not-yet-queued `(x, z)` for neighbors `z` of `x` other than `y`.  On
`cw5b` the first popped arc is `(vA3, vD4)`, its revision succeeds, and
`vA3`'s domain remains the non-empty `["bat"]`, so the step lies inside
the claim's guard; the remaining worklist is `[(vA3, vD4b)]`, and since
`vD4b` is the only neighbor of `vA3` besides `vD4` and is already queued,
the claim predicts that nothing is enqueued.  The code instead iterates
over the neighbors of the stale loop variable (`vD4b`, the last variable
of the initialization loop), whose neighbor is `vA3` itself, and appends
the nonsense arc `(vA3, vA3)` — whose second component is not even a
neighbor of `vA3`. -/
theorem enqueue_uses_stale_neighbors :
    initial_arcs cw5b = [(vA3, vD4), (vA3, vD4b)] ∧
      (revise cw5b vA3 vD4 cw5bD).1 = true ∧
      (revise cw5b vA3 vD4 cw5bD).2 vA3 = [bat] ∧
      cw5b.vars.getLast? = some vD4b ∧
      neighbors cw5b vD4b = [vA3] ∧
      neighbors cw5b vA3 = [vD4, vD4b] ∧
      enqueue_arcs vA3 vD4 (neighbors cw5b vD4b) [(vA3, vD4b)]
        = [(vA3, vD4b), (vA3, vA3)] ∧
      vA3 ∉ neighbors cw5b vA3 := by decide

/-- C6 counterexample: the claim says the default initial worklist contains
*every* ordered pair `(v, n)` with `n` a neighbor of `v`.  On `cw2`, `vA3`
is a neighbor of `vD4`, yet `(vD4, vA3)` is not in the initial worklist:
the builder skips `(var, neighbor)` whenever the reversed arc is already
present. -/
theorem initial_arcs_misses_reverse_arc :
    vA3 ∈ neighbors cw2 vD4 ∧ (vD4, vA3) ∉ initial_arcs cw2 := by decide

/-- C10: `order_domain_values` returns a permutation of the variable's
current domain — same elements with the same multiplicities, so the
value-ordering heuristic never adds or discards a candidate. -/
theorem order_domain_values_is_permutation (c : Crossword) (D : Domains)
    (var : Slot) (a : Assignment) :
    (order_domain_values c D var a).Perm (D var) ∧
      ∀ w : Word, (order_domain_values c D var a).countP (fun x => x == w)
        = (D var).countP (fun x => x == w) := by
  have h : (order_domain_values c D var a).Perm (D var) := by
    unfold order_domain_values
    have h1 := List.perm_insertionSort (fun p q : Word × Nat => p.2 ≤ q.2)
      ((D var).map (fun w => (w, rule_out_count c D a var w)))
    have h2 := h1.map Prod.fst
    simpa [Function.comp_def] using h2
  exact ⟨h, fun w => h.countP_eq (fun x => x == w)⟩

/-- C9: the list returned by `order_domain_values` is sorted in ascending
order of rule-out count: a candidate ruling out strictly fewer neighbor
values than another appears strictly before it (every occurrence of the
cheaper word precedes every occurrence of the more expensive one). -/
theorem order_domain_values_lcv_sorted (c : Crossword) (D : Domains)
    (var : Slot) (a : Assignment) (w1 w2 : Word)
    (hlt : rule_out_count c D a var w1 < rule_out_count c D a var w2) :
    ∀ i j : Nat, (order_domain_values c D var a)[i]? = some w1 →
      (order_domain_values c D var a)[j]? = some w2 → i < j := by
  intro i j hi hj
  haveI : IsTotal (Word × Nat) (fun p q => p.2 ≤ q.2) :=
    ⟨fun p q => Nat.le_total p.2 q.2⟩
  haveI : IsTrans (Word × Nat) (fun p q => p.2 ≤ q.2) :=
    ⟨fun p q r hpq hqr => Nat.le_trans hpq hqr⟩
  have hsorted := List.sorted_insertionSort (fun p q : Word × Nat => p.2 ≤ q.2)
    ((D var).map (fun w => (w, rule_out_count c D a var w)))
  have hres : order_domain_values c D var a =
      (List.insertionSort (fun p q : Word × Nat => p.2 ≤ q.2)
        ((D var).map (fun w => (w, rule_out_count c D a var w)))).map Prod.fst := rfl
  set sorted := List.insertionSort (fun p q : Word × Nat => p.2 ≤ q.2)
      ((D var).map (fun w => (w, rule_out_count c D a var w))) with hsorteddef
  have hsnd : ∀ p ∈ sorted, p.2 = rule_out_count c D a var p.1 := by
    intro p hp
    have hp' : p ∈ (D var).map (fun w => (w, rule_out_count c D a var w)) :=
      (List.perm_insertionSort _ _).mem_iff.1 hp
    obtain ⟨w, hw, rfl⟩ := List.mem_map.1 hp'
    rfl
  rw [hres] at hi hj
  obtain ⟨hilen, hival⟩ := List.getElem?_eq_some.1 hi
  obtain ⟨hjlen, hjval⟩ := List.getElem?_eq_some.1 hj
  rw [List.length_map] at hilen hjlen
  rw [List.getElem_map] at hival hjval
  by_contra hcon
  push_neg at hcon
  rcases Nat.lt_or_eq_of_le hcon with hlt' | heq
  · -- j strictly before i: sortedness forces count w2 ≤ count w1
    have hpair := List.pairwise_iff_getElem.1 hsorted j i hjlen hilen hlt'
    have hs1 := hsnd _ (List.getElem_mem hilen)
    have hs2 := hsnd _ (List.getElem_mem hjlen)
    rw [hival] at hs1
    rw [hjval] at hs2
    simp only [hs1, hs2] at hpair
    omega
  · -- equal positions force w1 = w2, contradicting the strict count gap
    subst heq
    have hww : w1 = w2 := by rw [← hival, ← hjval]
    rw [hww] at hlt
    omega

/-- Deleting a freshly inserted key restores the dictionary exactly. -/
theorem eraseKey_aInsert (v : Slot) (w : Word) (a : Assignment)
    (hv : v ∉ keys a) : eraseKey v (aInsert v w a) = a := by
  unfold eraseKey aInsert
  rw [List.filter_cons]
  have hvv : (!((v, w).1 == v)) = false := by simp
  rw [hvv]
  simp only [Bool.false_eq_true, if_false]
  apply List.filter_eq_self.2
  intro p hp
  have hne : p.1 ≠ v := fun heq => hv (List.mem_map.2 ⟨p, hp, heq⟩)
  simp [hne]

/-- Every member of the accumulator returned by `mrv_loop` is either an
original accumulator member or an unassigned variable from the scanned
list. -/
theorem mrv_loop_mem (D : Domains) (a : Assignment) :
    ∀ (l : List Slot) (m : Nat) (acc : List Slot) (x : Slot),
      x ∈ (mrv_loop D a l m acc).2 → x ∈ acc ∨ (x ∈ l ∧ x ∉ keys a) := by
  intro l
  induction l with
  | nil =>
    intro m acc x hx
    exact Or.inl hx
  | cons v rest ih =>
    intro m acc x hx
    unfold mrv_loop at hx
    by_cases hk : v ∈ keys a
    · rw [if_pos hk] at hx
      rcases ih _ _ _ hx with h | h
      · exact Or.inl h
      · exact Or.inr ⟨List.mem_cons_of_mem _ h.1, h.2⟩
    · rw [if_neg hk] at hx
      by_cases h1 : (D v).length < m
      · rw [if_pos h1] at hx
        rcases ih _ _ _ hx with h | h
        · rcases List.mem_singleton.1 h with rfl
          exact Or.inr ⟨List.mem_cons_self _ _, hk⟩
        · exact Or.inr ⟨List.mem_cons_of_mem _ h.1, h.2⟩
      · rw [if_neg h1] at hx
        by_cases h2 : (D v).length = m
        · rw [if_pos h2] at hx
          rcases ih _ _ _ hx with h | h
          · rcases List.mem_append.1 h with h | h
            · exact Or.inl h
            · rcases List.mem_singleton.1 h with rfl
              exact Or.inr ⟨List.mem_cons_self _ _, hk⟩
          · exact Or.inr ⟨List.mem_cons_of_mem _ h.1, h.2⟩
        · rw [if_neg h2] at hx
          rcases ih _ _ _ hx with h | h
          · exact Or.inl h
          · exact Or.inr ⟨List.mem_cons_of_mem _ h.1, h.2⟩

/-- `degree_loop` returns either its running best or a member of the
scanned list. -/
theorem degree_loop_mem (c : Crossword) :
    ∀ (l : List Slot) (minN : Nat) (best : Option Slot) (v : Slot),
      degree_loop c l minN best = some v → best = some v ∨ v ∈ l := by
  intro l
  induction l with
  | nil =>
    intro minN best v h
    exact Or.inl h
  | cons x rest ih =>
    intro minN best v h
    unfold degree_loop at h
    by_cases hx : (neighbors c x).length < minN
    · rw [if_pos hx] at h
      rcases ih _ _ _ h with h' | h'
      · rcases Option.some_injective _ h' with rfl
        exact Or.inr (List.mem_cons_self _ _)
      · exact Or.inr (List.mem_cons_of_mem _ h')
    · rw [if_neg hx] at h
      rcases ih _ _ _ h with h' | h'
      · exact Or.inl h'
      · exact Or.inr (List.mem_cons_of_mem _ h')

/-- A selected variable is a crossword variable and is unassigned. -/
theorem select_some_mem (c : Crossword) (D : Domains) (a : Assignment)
    (v : Slot) (h : select_unassigned_variable c D a = some v) :
    v ∈ c.vars ∧ v ∉ keys a := by
  unfold select_unassigned_variable at h
  by_cases hlen : (mrv_loop D a c.vars 1000000 []).2.length = 1
  · rw [if_pos hlen] at h
    have hv : v ∈ (mrv_loop D a c.vars 1000000 []).2 := by
      cases hl : (mrv_loop D a c.vars 1000000 []).2 with
      | nil => rw [hl] at h; exact absurd h (by simp)
      | cons y ys =>
        rw [hl] at h
        simp only [List.head?_cons, Option.some.injEq] at h
        rw [← h]
        exact List.mem_cons_self _ _
    rcases mrv_loop_mem D a _ _ _ _ hv with h' | h'
    · exact absurd h' (List.not_mem_nil _)
    · exact h'
  · rw [if_neg hlen] at h
    rcases degree_loop_mem c _ _ _ _ h with h' | h'
    · exact absurd h' (by simp)
    · rcases mrv_loop_mem D a _ _ _ _ h' with h'' | h''
      · exact absurd h'' (List.not_mem_nil _)
      · exact h''

/-- If the abstracted recursive call restores the dictionary on failure,
so does the candidate loop of `backtrack`: on a `none` return the shared
assignment equals the one received. -/
theorem bt_loop_restores (c : Crossword)
    (bt : Assignment → Option Assignment × Assignment) (var : Slot)
    (hbt : ∀ a, (bt a).1 = none → (bt a).2 = a) :
    ∀ (values : List Word) (a : Assignment), var ∉ keys a →
      (bt_loop c bt var values a).1 = none →
      (bt_loop c bt var values a).2 = a := by
  intro values
  induction values with
  | nil =>
    intro a hv h
    rfl
  | cons value rest ih =>
    intro a hv h
    unfold bt_loop at h ⊢
    by_cases hc : consistent c (aInsert var value a) = true
    · rw [if_pos hc] at h ⊢
      rcases hbta : bt (aInsert var value a) with ⟨o, s⟩
      cases o with
      | some r =>
        rw [hbta] at h
        exact absurd h (by simp)
      | none =>
        have hs : s = aInsert var value a := by
          have h2 := hbt (aInsert var value a)
          rw [hbta] at h2
          exact h2 rfl
        rw [hbta] at h
        have h1 : (bt_loop c bt var rest (eraseKey var s)).1 = none := h
        rw [hs, eraseKey_aInsert var value a hv] at h1
        show (bt_loop c bt var rest (eraseKey var s)).2 = a
        rw [hs, eraseKey_aInsert var value a hv]
        exact ih a hv h1
    · rw [if_neg hc] at h ⊢
      rw [eraseKey_aInsert var value a hv] at h ⊢
      exact ih a hv h

/-- C7: backtracking is atomic on failure: whenever `backtrack` returns
`None`, the shared assignment dict holds exactly the entries it held on
entry — every entry the call added was removed on every failing path. -/
theorem backtrack_restores_assignment_on_failure (c : Crossword)
    (D : Domains) (fuel : Nat) (a : Assignment)
    (h : (backtrack c D fuel a).1 = none) : (backtrack c D fuel a).2 = a := by
  induction fuel generalizing a with
  | zero => rfl
  | succ fuel ih =>
    unfold backtrack at h ⊢
    cases hcomp : assignment_complete c a with
    | true =>
      rw [hcomp] at h
      exact absurd h (by simp)
    | false =>
      rw [hcomp] at h
      simp only [Bool.false_eq_true, if_false] at h ⊢
      cases hsel : select_unassigned_variable c D a with
      | none => rfl
      | some var =>
        rw [hsel] at h
        exact bt_loop_restores c (backtrack c D fuel) var ih
          (order_domain_values c D var a) a (select_some_mem c D a var hsel).2 h

/-- The empty assignment is consistent. -/
theorem consistent_nil (c : Crossword) : consistent c [] = true := rfl

/-- A key of the assignment has a defined lookup. -/
theorem lookup_isSome_of_mem_keys (a : Assignment) (v : Slot)
    (h : v ∈ keys a) : ∃ w, lookup a v = some w := by
  unfold keys at h
  obtain ⟨p, hp, hpv⟩ := List.mem_map.1 h
  have hsome : (a.find? (fun p => p.1 == v)).isSome :=
    List.find?_isSome.2 ⟨p, hp, by simp [hpv]⟩
  obtain ⟨q, hq⟩ := Option.isSome_iff_exists.1 hsome
  exact ⟨q.2, by unfold lookup; rw [hq]; rfl⟩

/-- A successful lookup exhibits a member entry of the assignment. -/
theorem mem_of_lookup_eq_some (a : Assignment) (v : Slot) (w : Word)
    (h : lookup a v = some w) : (v, w) ∈ a := by
  unfold lookup at h
  cases hf : a.find? (fun p => p.1 == v) with
  | none => rw [hf] at h; exact absurd h (by simp)
  | some q =>
    rw [hf] at h
    have hq1 : q.1 = v := by
      have := List.find?_some hf
      simpa using this
    have hq2 : q.2 = w := by simpa using h
    have hmem := List.mem_of_find?_eq_some hf
    rw [← hq1, ← hq2]
    exact hmem

/-- Every entry scanned by a successful `consistent` traversal satisfies
the length constraint. -/
theorem consistent_go_length (c : Crossword) (a : Assignment) :
    ∀ (l : List (Slot × Word)) (ws : List Word),
      consistent_go c a l ws = true → ∀ p ∈ l, p.1.length = p.2.length := by
  intro l
  induction l with
  | nil => intro ws h p hp; exact absurd hp (List.not_mem_nil _)
  | cons q rest ih =>
    intro ws h p hp
    obtain ⟨var, w⟩ := q
    unfold consistent_go at h
    by_cases h1 : (!(var.length == w.length)) = true
    · rw [if_pos h1] at h
      exact absurd h (by simp)
    · rw [if_neg h1] at h
      have hlen : var.length = w.length := by
        simpa using h1
      by_cases h2 : w ∈ ws
      · rw [if_pos h2] at h
        exact absurd h (by simp)
      · rw [if_neg h2] at h
        by_cases h3 : ((neighbors c var).all (fun n =>
            match lookup a n with
            | none => true
            | some wn =>
              match c.overlaps var n with
              | some o => w.getD o.1 '?' == wn.getD o.2 '?'
              | none => true)) = true
        · rw [if_pos h3] at h
          rcases List.mem_cons.1 hp with rfl | hp'
          · exact hlen
          · exact ih _ h p hp'
        · rw [if_neg h3] at h
          exact absurd h (by simp)

/-- A successful `consistent` traversal never reuses a word: the words of
the scanned entries are pairwise distinct and disjoint from the
accumulator. -/
theorem consistent_go_distinct (c : Crossword) (a : Assignment) :
    ∀ (l : List (Slot × Word)) (ws : List Word),
      consistent_go c a l ws = true →
      (l.map Prod.snd).Nodup ∧ ∀ w ∈ l.map Prod.snd, w ∉ ws := by
  intro l
  induction l with
  | nil =>
    intro ws h
    exact ⟨List.nodup_nil, fun w hw => absurd hw (List.not_mem_nil _)⟩
  | cons q rest ih =>
    intro ws h
    obtain ⟨var, w⟩ := q
    unfold consistent_go at h
    by_cases h1 : (!(var.length == w.length)) = true
    · rw [if_pos h1] at h
      exact absurd h (by simp)
    · rw [if_neg h1] at h
      by_cases h2 : w ∈ ws
      · rw [if_pos h2] at h
        exact absurd h (by simp)
      · rw [if_neg h2] at h
        by_cases h3 : ((neighbors c var).all (fun n =>
            match lookup a n with
            | none => true
            | some wn =>
              match c.overlaps var n with
              | some o => w.getD o.1 '?' == wn.getD o.2 '?'
              | none => true)) = true
        · rw [if_pos h3] at h
          obtain ⟨hnd, hdisj⟩ := ih _ h
          constructor
          · refine List.nodup_cons.2 ⟨?_, hnd⟩
            intro hmem
            have := hdisj w hmem
            exact this (List.mem_append.2 (Or.inr (List.mem_singleton.2 rfl)))
          · intro w' hw'
            rcases List.mem_cons.1 hw' with rfl | hw''
            · exact h2
            · intro hws
              exact hdisj w' hw'' (List.mem_append.2 (Or.inl hws))
        · rw [if_neg h3] at h
          exact absurd h (by simp)

/-- Every entry scanned by a successful `consistent` traversal agrees with
each of its assigned neighbors at the overlap indices. -/
theorem consistent_go_overlap (c : Crossword) (a : Assignment) :
    ∀ (l : List (Slot × Word)) (ws : List Word),
      consistent_go c a l ws = true → ∀ p ∈ l, ∀ n ∈ neighbors c p.1,
        ∀ wn, lookup a n = some wn → ∀ o, c.overlaps p.1 n = some o →
          p.2.getD o.1 '?' = wn.getD o.2 '?' := by
  intro l
  induction l with
  | nil => intro ws h p hp; exact absurd hp (List.not_mem_nil _)
  | cons q rest ih =>
    intro ws h p hp
    obtain ⟨var, w⟩ := q
    unfold consistent_go at h
    by_cases h1 : (!(var.length == w.length)) = true
    · rw [if_pos h1] at h
      exact absurd h (by simp)
    · rw [if_neg h1] at h
      by_cases h2 : w ∈ ws
      · rw [if_pos h2] at h
        exact absurd h (by simp)
      · rw [if_neg h2] at h
        by_cases h3 : ((neighbors c var).all (fun n =>
            match lookup a n with
            | none => true
            | some wn =>
              match c.overlaps var n with
              | some o => w.getD o.1 '?' == wn.getD o.2 '?'
              | none => true)) = true
        · rw [if_pos h3] at h
          rcases List.mem_cons.1 hp with rfl | hp'
          · intro n hn wn hwn o ho
            have hall := List.all_eq_true.1 h3 n hn
            rw [hwn, ho] at hall
            simpa using hall
          · exact ih _ h p hp'
        · rw [if_neg h3] at h
          exact absurd h (by simp)

/-- If the abstracted recursive call turns consistent inputs into complete
consistent outputs, so does the candidate loop of `backtrack` (every
recursion it launches is on an assignment it has just checked). -/
theorem bt_loop_some (c : Crossword)
    (bt : Assignment → Option Assignment × Assignment) (var : Slot)
    (hbt : ∀ a r s, bt a = (some r, s) →
      assignment_complete c r = true ∧
        (consistent c a = true → consistent c r = true)) :
    ∀ (values : List Word) (a : Assignment) (r s : Assignment),
      bt_loop c bt var values a = (some r, s) →
      assignment_complete c r = true ∧ consistent c r = true := by
  intro values
  induction values with
  | nil =>
    intro a r s h
    exact absurd h (by simp [bt_loop])
  | cons value rest ih =>
    intro a r s h
    unfold bt_loop at h
    by_cases hc : consistent c (aInsert var value a) = true
    · rw [if_pos hc] at h
      rcases hbta : bt (aInsert var value a) with ⟨o, s'⟩
      rw [hbta] at h
      cases o with
      | some r' =>
        have hr : r' = r := by
          have h1 : ((some r', s') : Option Assignment × Assignment) = (some r, s) := h
          have h2 := congrArg Prod.fst h1
          simpa using h2
        obtain ⟨hcomp, hcons⟩ := hbt _ _ _ hbta
        rw [← hr]
        exact ⟨hcomp, hcons hc⟩
      | none =>
        exact ih _ r s h
    · rw [if_neg hc] at h
      exact ih _ r s h

/-- Whenever `backtrack` returns an assignment and its input was
consistent, the returned assignment is complete and consistent. -/
theorem backtrack_some (c : Crossword) (D : Domains) :
    ∀ (fuel : Nat) (a r s : Assignment),
      backtrack c D fuel a = (some r, s) →
      assignment_complete c r = true ∧
        (consistent c a = true → consistent c r = true) := by
  intro fuel
  induction fuel with
  | zero =>
    intro a r s h
    exact absurd h (by simp [backtrack])
  | succ fuel ih =>
    intro a r s h
    unfold backtrack at h
    cases hcomp : assignment_complete c a with
    | true =>
      rw [hcomp] at h
      simp only [if_pos] at h
      have hr : a = r := by
        have := congrArg Prod.fst h
        simpa using this
      rw [← hr]
      exact ⟨hcomp, fun hcons => hcons⟩
    | false =>
      rw [hcomp] at h
      simp only [Bool.false_eq_true, if_false] at h
      cases hsel : select_unassigned_variable c D a with
      | none =>
        rw [hsel] at h
        exact absurd h (by simp)
      | some var =>
        rw [hsel] at h
        have := bt_loop_some c (backtrack c D fuel) var
          (fun a' r' s' h' => ih a' r' s' h') _ a r s h
        exact ⟨this.1, fun _ => this.2⟩

/-- C1: every non-`None` assignment returned by `solve` is complete (each
crossword variable has an entry) and satisfies the three hard constraints:
each assigned word's length matches its variable's length, distinct
variables hold distinct words, and every pair of variables with a defined
overlap agrees at the overlap indices. -/
theorem solve_some_complete_and_valid (c : Crossword) (fuelA fuelB : Nat)
    (r s : Assignment) (h : solve c fuelA fuelB = (some r, s)) :
    (∀ v ∈ c.vars, ∃ w, lookup r v = some w) ∧
    (∀ v ∈ c.vars, ∀ w, lookup r v = some w → w.length = v.length) ∧
    (∀ v1 ∈ c.vars, ∀ v2 ∈ c.vars, v1 ≠ v2 → ∀ w1 w2,
      lookup r v1 = some w1 → lookup r v2 = some w2 → w1 ≠ w2) ∧
    (∀ v1 ∈ c.vars, ∀ v2 ∈ c.vars, v1 ≠ v2 → ∀ o, c.overlaps v1 v2 = some o →
      ∀ w1 w2, lookup r v1 = some w1 → lookup r v2 = some w2 →
        w1.getD o.1 '?' = w2.getD o.2 '?') := by
  have hbs := backtrack_some c
    ((ac3 c fuelA (enforce_node_consistency c (initialDomains c))).2)
    fuelB [] r s h
  obtain ⟨hcomp, hconsf⟩ := hbs
  have hcons : consistent c r = true := hconsf (consistent_nil c)
  refine ⟨?_, ?_, ?_, ?_⟩
  · intro v hv
    have hk : v ∈ keys r := by
      have := List.all_eq_true.1 hcomp v hv
      simpa using this
    exact lookup_isSome_of_mem_keys r v hk
  · intro v hv w hw
    have hmem := mem_of_lookup_eq_some r v w hw
    exact (consistent_go_length c r r [] hcons (v, w) hmem).symm
  · intro v1 hv1 v2 hv2 hne w1 w2 hw1 hw2
    have hm1 := mem_of_lookup_eq_some r v1 w1 hw1
    have hm2 := mem_of_lookup_eq_some r v2 w2 hw2
    have hnd := (consistent_go_distinct c r r [] hcons).1
    intro hww
    have heq := List.inj_on_of_nodup_map hnd hm1 hm2 (by simpa using hww)
    exact hne (congrArg Prod.fst heq)
  · intro v1 hv1 v2 hv2 hne o ho w1 w2 hw1 hw2
    have hm1 := mem_of_lookup_eq_some r v1 w1 hw1
    have hn : v2 ∈ neighbors c v1 := by
      unfold neighbors
      refine List.mem_filter.2 ⟨hv2, ?_⟩
      simp [Ne.symm hne, ho]
    exact consistent_go_overlap c r r [] hcons (v1, w1) hm1 v2 hn w2 hw2 o ho

/-- C1 witness: on the single-slot crossword `cw1`, `solve` returns the
assignment mapping `vA3` to "cat", which is complete and satisfies all
three hard constraints. -/
theorem solve_some_complete_and_valid_witness :
    (∀ v ∈ cw1.vars, ∃ w, lookup [(vA3, cat)] v = some w) ∧
    (∀ v ∈ cw1.vars, ∀ w, lookup [(vA3, cat)] v = some w →
      w.length = v.length) ∧
    (∀ v1 ∈ cw1.vars, ∀ v2 ∈ cw1.vars, v1 ≠ v2 → ∀ w1 w2,
      lookup [(vA3, cat)] v1 = some w1 → lookup [(vA3, cat)] v2 = some w2 →
        w1 ≠ w2) ∧
    (∀ v1 ∈ cw1.vars, ∀ v2 ∈ cw1.vars, v1 ≠ v2 → ∀ o,
      cw1.overlaps v1 v2 = some o → ∀ w1 w2,
        lookup [(vA3, cat)] v1 = some w1 → lookup [(vA3, cat)] v2 = some w2 →
          w1.getD o.1 '?' = w2.getD o.2 '?') :=
  solve_some_complete_and_valid cw1 4 4 [(vA3, cat)] [(vA3, cat)] (by decide)

/-- C7 witness: on the unsolvable single-slot instance `cwBad` (only word
"bird", slot length 3) `backtrack` starting from the empty dict fails and
returns with the dict still empty. -/
theorem backtrack_restores_assignment_on_failure_witness :
    (backtrack cwBad (fun _ => [bird]) 5 []).1 = none ∧
      (backtrack cwBad (fun _ => [bird]) 5 []).2 = [] :=
  ⟨by decide,
    backtrack_restores_assignment_on_failure cwBad (fun _ => [bird]) 5 []
      (by decide)⟩

/-- C9 witness: on `cw3` with the empty assignment, "crow" rules out 0 of
the neighbor's values, "bird" rules out 1, "crow" is placed at position 0
and "bird" at position 1, and the theorem confirms 0 < 1. -/
theorem order_domain_values_lcv_sorted_witness :
    rule_out_count cw3 cw3D [] vD4 crow < rule_out_count cw3 cw3D [] vD4 bird ∧
      (order_domain_values cw3 cw3D vD4 [])[0]? = some crow ∧
      (order_domain_values cw3 cw3D vD4 [])[1]? = some bird ∧ (0 : Nat) < 1 :=
  ⟨by decide, by decide, by decide,
    order_domain_values_lcv_sorted cw3 cw3D vD4 [] crow bird (by decide) 0 1
      (by decide) (by decide)⟩

/-- The nested initialization loops of `ac3` equal a single fold of
`init_step` over the scanned `(variable, neighbor)` pairs. -/
theorem initial_arcs_eq_foldl (c : Crossword) :
    initial_arcs c = (arc_pairs c).foldl init_step [] := by
  unfold initial_arcs arc_pairs
  suffices haux : ∀ (l : List Slot) (acc : List (Slot × Slot)),
      l.foldl (fun arcs v =>
        (neighbors c v).foldl
          (fun arcs n => if (n, v) ∉ arcs then arcs ++ [(v, n)] else arcs) arcs) acc
        = (l.flatMap (fun v => (neighbors c v).map (fun n => (v, n)))).foldl
            init_step acc by
    exact haux c.vars []
  intro l
  induction l with
  | nil => intro acc; rfl
  | cons v rest ih =>
    intro acc
    rw [List.foldl_cons, List.flatMap_cons, List.foldl_append, List.foldl_map, ih]
    rfl

/-- Folding `init_step` only appends: the accumulator is preserved. -/
theorem foldl_init_step_mono :
    ∀ (l acc : List (Slot × Slot)) (p : Slot × Slot),
      p ∈ acc → p ∈ l.foldl init_step acc := by
  intro l
  induction l with
  | nil => intro acc p hp; exact hp
  | cons q rest ih =>
    intro acc p hp
    rw [List.foldl_cons]
    apply ih
    unfold init_step
    by_cases hq : (q.2, q.1) ∉ acc
    · rw [if_pos hq]
      exact List.mem_append.2 (Or.inl hp)
    · rw [if_neg hq]
      exact hp

/-- Folding `init_step` never holds both directions of an arc between two
distinct variables, provided the accumulator does not. -/
theorem foldl_init_step_at_most_one :
    ∀ (l acc : List (Slot × Slot)),
      (∀ x y : Slot, x ≠ y → ¬((x, y) ∈ acc ∧ (y, x) ∈ acc)) →
      ∀ x y : Slot, x ≠ y →
        ¬((x, y) ∈ l.foldl init_step acc ∧ (y, x) ∈ l.foldl init_step acc) := by
  intro l
  induction l with
  | nil => intro acc hinv x y hxy; exact hinv x y hxy
  | cons q rest ih =>
    intro acc hinv x y hxy
    rw [List.foldl_cons]
    apply ih _ _ x y hxy
    intro x' y' hxy'
    unfold init_step
    by_cases hq : (q.2, q.1) ∉ acc
    · rw [if_pos hq]
      rintro ⟨h1, h2⟩
      rcases List.mem_append.1 h1 with h1 | h1 <;>
        rcases List.mem_append.1 h2 with h2 | h2
      · exact hinv x' y' hxy' ⟨h1, h2⟩
      · rcases List.mem_singleton.1 h2 with h2
        have : (q.2, q.1) = (x', y') := by rw [← h2]
        exact hq (this ▸ h1)
      · rcases List.mem_singleton.1 h1 with h1
        have : (q.2, q.1) = (y', x') := by rw [← h1]
        exact hq (this ▸ h2)
      · rcases List.mem_singleton.1 h1 with h1
        rcases List.mem_singleton.1 h2 with h2
        rw [← h2] at h1
        have hx : x' = y' := congrArg Prod.fst h1
        exact hxy' hx
    · rw [if_neg hq]
      exact hinv x' y' hxy'
  -- (proof by preserving the pair-exclusivity invariant through each step)

/-- Folding `init_step` keeps at least one direction of every scanned arc:
if the pair is scanned, or one direction is already in the accumulator,
one direction survives to the result. -/
theorem foldl_init_step_at_least_one :
    ∀ (l acc : List (Slot × Slot)) (p : Slot × Slot),
      (p ∈ l ∨ p ∈ acc ∨ (p.2, p.1) ∈ acc) →
      p ∈ l.foldl init_step acc ∨ (p.2, p.1) ∈ l.foldl init_step acc := by
  intro l
  induction l with
  | nil =>
    intro acc p hp
    rcases hp with hp | hp | hp
    · exact absurd hp (List.not_mem_nil _)
    · exact Or.inl hp
    · exact Or.inr hp
  | cons q rest ih =>
    intro acc p hp
    rw [List.foldl_cons]
    rcases hp with hp | hp | hp
    · rcases List.mem_cons.1 hp with rfl | hp'
      · unfold init_step
        by_cases hq : (p.2, p.1) ∉ acc
        · rw [if_pos hq]
          exact ih _ p (Or.inr (Or.inl
            (List.mem_append.2 (Or.inr (List.mem_singleton.2 rfl)))))
        · rw [if_neg hq]
          exact ih _ p (Or.inr (Or.inr (not_not.1 hq)))
      · exact ih _ p (Or.inl hp')
    · refine ih _ p (Or.inr (Or.inl ?_))
      unfold init_step
      by_cases hq : (q.2, q.1) ∉ acc
      · rw [if_pos hq]
        exact List.mem_append.2 (Or.inl hp)
      · rw [if_neg hq]
        exact hp
    · refine ih _ p (Or.inr (Or.inr ?_))
      unfold init_step
      by_cases hq : (q.2, q.1) ∉ acc
      · rw [if_pos hq]
        exact List.mem_append.2 (Or.inl hp)
      · rw [if_neg hq]
        exact hp

/-- C6 amended: when `ac3` builds the default worklist, it contains, for
every pair of neighboring variables, exactly one of the two ordered arcs
(the builder skips `(var, neighbor)` whenever the reversed arc was already
appended), not both directions as the claim states. -/
theorem initial_arcs_one_direction (c : Crossword) (v n : Slot)
    (hv : v ∈ c.vars) (hn : n ∈ neighbors c v) :
    ((v, n) ∈ initial_arcs c ∨ (n, v) ∈ initial_arcs c) ∧
      ¬((v, n) ∈ initial_arcs c ∧ (n, v) ∈ initial_arcs c) := by
  have hne : n ≠ v := by
    unfold neighbors at hn
    have := (List.mem_filter.1 hn).2
    simp only [decide_eq_true_eq] at this
    exact this.1
  rw [initial_arcs_eq_foldl]
  constructor
  · exact foldl_init_step_at_least_one (arc_pairs c) [] (v, n)
      (Or.inl (List.mem_flatMap.2 ⟨v, hv, List.mem_map.2 ⟨n, hn, rfl⟩⟩))
  · exact foldl_init_step_at_most_one (arc_pairs c) []
      (fun x y hxy h => absurd h.1 (List.not_mem_nil _)) v n (Ne.symm hne)

/-- C6 amended witness: on the two-slot crossword `cw2`, the pair
`(vA3, vD4)` of neighboring variables contributes exactly one direction to
the initial worklist. -/
theorem initial_arcs_one_direction_witness :
    (((vA3, vD4) ∈ initial_arcs cw2 ∨ (vD4, vA3) ∈ initial_arcs cw2) ∧
      ¬((vA3, vD4) ∈ initial_arcs cw2 ∧ (vD4, vA3) ∈ initial_arcs cw2)) :=
  initial_arcs_one_direction cw2 vA3 vD4 (by decide) (by decide)

/-- Full characterization of the MRV scan: the final minimum is a lower
bound on the domain sizes of scanned unassigned variables, the collected
list holds exactly the scanned unassigned variables achieving it, and it
is non-empty as soon as some scanned unassigned variable has a domain no
larger than the running minimum. -/
theorem mrv_loop_spec (D : Domains) (a : Assignment) :
    ∀ (l : List Slot) (m : Nat) (acc : List Slot),
      (∀ x ∈ acc, x ∉ keys a ∧ (D x).length = m) →
      (mrv_loop D a l m acc).1 ≤ m ∧
      (∀ x ∈ l, x ∉ keys a → (mrv_loop D a l m acc).1 ≤ (D x).length) ∧
      (∀ x ∈ (mrv_loop D a l m acc).2,
        x ∉ keys a ∧ (D x).length = (mrv_loop D a l m acc).1) ∧
      (∀ u, (u ∈ acc ∨ (u ∈ l ∧ u ∉ keys a)) →
        (D u).length = (mrv_loop D a l m acc).1 →
        u ∈ (mrv_loop D a l m acc).2) ∧
      ((acc ≠ [] ∨ ∃ x ∈ l, x ∉ keys a ∧ (D x).length ≤ m) →
        (mrv_loop D a l m acc).2 ≠ []) := by
  intro l
  induction l with
  | nil =>
    intro m acc hacc
    refine ⟨Nat.le_refl m, ?_, ?_, ?_, ?_⟩
    · intro x hx
      exact absurd hx (List.not_mem_nil _)
    · intro x hx
      exact hacc x hx
    · intro u hu hsize
      rcases hu with hu | hu
      · exact hu
      · exact absurd hu.1 (List.not_mem_nil _)
    · intro hne
      rcases hne with hne | ⟨x, hx, _⟩
      · exact hne
      · exact absurd hx (List.not_mem_nil _)
  | cons v rest ih =>
    intro m acc hacc
    unfold mrv_loop
    by_cases hk : v ∈ keys a
    · rw [if_pos hk]
      obtain ⟨i1, i2, i3, i4, i5⟩ := ih m acc hacc
      refine ⟨i1, ?_, i3, ?_, ?_⟩
      · intro x hx hxk
        rcases List.mem_cons.1 hx with rfl | hx'
        · exact absurd hk hxk
        · exact i2 x hx' hxk
      · intro u hu hsize
        rcases hu with hu | ⟨hu, huk⟩
        · exact i4 u (Or.inl hu) hsize
        · rcases List.mem_cons.1 hu with rfl | hu'
          · exact absurd hk huk
          · exact i4 u (Or.inr ⟨hu', huk⟩) hsize
      · intro hne
        rcases hne with hne | ⟨x, hx, hxk, hxs⟩
        · exact i5 (Or.inl hne)
        · rcases List.mem_cons.1 hx with rfl | hx'
          · exact absurd hk hxk
          · exact i5 (Or.inr ⟨x, hx', hxk, hxs⟩)
    · rw [if_neg hk]
      by_cases hlt : (D v).length < m
      · rw [if_pos hlt]
        have hacc' : ∀ x ∈ [v], x ∉ keys a ∧ (D x).length = (D v).length := by
          intro x hx
          rcases List.mem_singleton.1 hx with rfl
          exact ⟨hk, rfl⟩
        obtain ⟨i1, i2, i3, i4, i5⟩ := ih ((D v).length) [v] hacc'
        refine ⟨Nat.le_trans i1 (Nat.le_of_lt hlt), ?_, i3, ?_, ?_⟩
        · intro x hx hxk
          rcases List.mem_cons.1 hx with rfl | hx'
          · exact i1
          · exact i2 x hx' hxk
        · intro u hu hsize
          rcases hu with hu | ⟨hu, huk⟩
          · have := (hacc u hu).2
            have hm' := Nat.le_trans i1 (Nat.le_of_lt hlt)
            omega
          · rcases List.mem_cons.1 hu with rfl | hu'
            · exact i4 u (Or.inl (List.mem_singleton.2 rfl)) hsize
            · exact i4 u (Or.inr ⟨hu', huk⟩) hsize
        · intro _
          exact i5 (Or.inl (by simp))
      · rw [if_neg hlt]
        by_cases heq : (D v).length = m
        · rw [if_pos heq]
          have hacc' : ∀ x ∈ acc ++ [v], x ∉ keys a ∧ (D x).length = m := by
            intro x hx
            rcases List.mem_append.1 hx with hx' | hx'
            · exact hacc x hx'
            · rcases List.mem_singleton.1 hx' with rfl
              exact ⟨hk, heq⟩
          obtain ⟨i1, i2, i3, i4, i5⟩ := ih m (acc ++ [v]) hacc'
          refine ⟨i1, ?_, i3, ?_, ?_⟩
          · intro x hx hxk
            rcases List.mem_cons.1 hx with rfl | hx'
            · rw [heq]; exact i1
            · exact i2 x hx' hxk
          · intro u hu hsize
            rcases hu with hu | ⟨hu, huk⟩
            · exact i4 u (Or.inl (List.mem_append.2 (Or.inl hu))) hsize
            · rcases List.mem_cons.1 hu with rfl | hu'
              · exact i4 u
                  (Or.inl (List.mem_append.2 (Or.inr (List.mem_singleton.2 rfl))))
                  hsize
              · exact i4 u (Or.inr ⟨hu', huk⟩) hsize
          · intro _
            exact i5 (Or.inl (by simp))
        · rw [if_neg heq]
          have hgt : m < (D v).length := by omega
          obtain ⟨i1, i2, i3, i4, i5⟩ := ih m acc hacc
          refine ⟨i1, ?_, i3, ?_, ?_⟩
          · intro x hx hxk
            rcases List.mem_cons.1 hx with rfl | hx'
            · omega
            · exact i2 x hx' hxk
          · intro u hu hsize
            rcases hu with hu | ⟨hu, huk⟩
            · exact i4 u (Or.inl hu) hsize
            · rcases List.mem_cons.1 hu with rfl | hu'
              · omega
              · exact i4 u (Or.inr ⟨hu', huk⟩) hsize
          · intro hne
            rcases hne with hne | ⟨x, hx, hxk, hxs⟩
            · exact i5 (Or.inl hne)
            · rcases List.mem_cons.1 hx with rfl | hx'
              · omega
              · exact i5 (Or.inr ⟨x, hx', hxk, hxs⟩)

/-- Characterization of the degree scan: any returned variable realizes
the minimum neighbor count over the scanned list (and over the running
best), and a variable is returned as soon as the scan can improve on the
running bound or a best is already at hand. -/
theorem degree_loop_spec (c : Crossword) :
    ∀ (l : List Slot) (minN : Nat) (best : Option Slot),
      (∀ b, best = some b → (neighbors c b).length ≤ minN) →
      (∀ v, degree_loop c l minN best = some v →
        (neighbors c v).length ≤ minN ∧
          ∀ u ∈ l, (neighbors c v).length ≤ (neighbors c u).length) ∧
      (((∃ x ∈ l, (neighbors c x).length < minN) ∨ ∃ b, best = some b) →
        ∃ v, degree_loop c l minN best = some v) := by
  intro l
  induction l with
  | nil =>
    intro minN best hbest
    constructor
    · intro v hv
      exact ⟨hbest v hv, fun u hu => absurd hu (List.not_mem_nil _)⟩
    · intro h
      rcases h with ⟨x, hx, _⟩ | ⟨b, hb⟩
      · exact absurd hx (List.not_mem_nil _)
      · exact ⟨b, hb⟩
  | cons x rest ih =>
    intro minN best hbest
    unfold degree_loop
    by_cases hx : (neighbors c x).length < minN
    · rw [if_pos hx]
      have hbest' : ∀ b, (some x : Option Slot) = some b →
          (neighbors c b).length ≤ (neighbors c x).length := by
        intro b hb
        rcases Option.some_injective _ hb with rfl
        exact Nat.le_refl _
      obtain ⟨j1, j2⟩ := ih ((neighbors c x).length) (some x) hbest'
      constructor
      · intro v hv
        obtain ⟨k1, k2⟩ := j1 v hv
        refine ⟨Nat.le_trans k1 (Nat.le_of_lt hx), ?_⟩
        intro u hu
        rcases List.mem_cons.1 hu with rfl | hu'
        · exact k1
        · exact k2 u hu'
      · intro _
        exact j2 (Or.inr ⟨x, rfl⟩)
    · rw [if_neg hx]
      obtain ⟨j1, j2⟩ := ih minN best hbest
      constructor
      · intro v hv
        obtain ⟨k1, k2⟩ := j1 v hv
        refine ⟨k1, ?_⟩
        intro u hu
        rcases List.mem_cons.1 hu with rfl | hu'
        · omega
        · exact k2 u hu'
      · intro h
        rcases h with ⟨y, hy, hylt⟩ | hb
        · rcases List.mem_cons.1 hy with rfl | hy'
          · exact absurd hylt hx
          · exact j2 (Or.inl ⟨y, hy', hylt⟩)
        · exact j2 (Or.inr hb)

/-- C8 counterexample: the claim promises an unassigned variable whenever
one exists, but the scan starts from the sentinel `min = 1000000`: with a
domain of 1000001 words the only unassigned variable is never collected
and `select_unassigned_variable` returns `None` (in Python, the ensuing
`self.domains[None]` lookup would crash `backtrack`). -/
theorem select_none_despite_unassigned :
    vA3 ∈ cw1.vars ∧ vA3 ∉ keys ([] : Assignment) ∧
      select_unassigned_variable cw1 bigD [] = none := by
  refine ⟨by decide, by decide, ?_⟩
  have h1 : (bigD vA3).length = 1000001 := by
    show (List.replicate 1000001 (['a'] : Word)).length = 1000001
    exact List.length_replicate _ _
  have hm : mrv_loop bigD [] cw1.vars 1000000 [] = (1000000, []) := by
    show mrv_loop bigD [] [vA3] 1000000 [] = (1000000, [])
    unfold mrv_loop
    rw [if_neg (show ¬(vA3 ∈ keys ([] : Assignment)) by decide)]
    rw [if_neg (show ¬((bigD vA3).length < 1000000) by rw [h1]; omega)]
    rw [if_neg (show ¬((bigD vA3).length = 1000000) by rw [h1]; omega)]
    rfl
  have hsel : select_unassigned_variable cw1 bigD [] =
      if (mrv_loop bigD [] cw1.vars 1000000 []).2.length = 1
      then (mrv_loop bigD [] cw1.vars 1000000 []).2.head?
      else degree_loop cw1 (mrv_loop bigD [] cw1.vars 1000000 []).2
        1000000 none := rfl
  rw [hsel, hm]
  rfl

/-- C8 amended: provided every unassigned variable's domain stays within
the code's `1000000` sentinel and there are fewer than 1000000 variables,
`select_unassigned_variable` returns an unassigned variable of minimal
domain size among the unassigned ones, and its neighbor count is minimal
among the unassigned variables tied at that minimal size (so a strictly
smaller neighbor count wins the tie-break, and with equal counts the
returned variable is one of the tied set). -/
theorem select_unassigned_variable_mrv_degree (c : Crossword) (D : Domains)
    (a : Assignment) (u0 : Slot) (hu0v : u0 ∈ c.vars) (hu0k : u0 ∉ keys a)
    (hsize : ∀ v ∈ c.vars, v ∉ keys a → (D v).length ≤ 1000000)
    (hvars : c.vars.length < 1000000) :
    ∃ v, select_unassigned_variable c D a = some v ∧ v ∈ c.vars ∧
      v ∉ keys a ∧
      (∀ u ∈ c.vars, u ∉ keys a → (D v).length ≤ (D u).length) ∧
      (∀ u ∈ c.vars, u ∉ keys a → (D u).length = (D v).length →
        (neighbors c v).length ≤ (neighbors c u).length) := by
  obtain ⟨i1, i2, i3, i4, i5⟩ := mrv_loop_spec D a c.vars 1000000 []
    (fun x hx => absurd hx (List.not_mem_nil _))
  have hne : (mrv_loop D a c.vars 1000000 []).2 ≠ [] :=
    i5 (Or.inr ⟨u0, hu0v, hu0k, hsize u0 hu0v hu0k⟩)
  have hnb : ∀ x : Slot, (neighbors c x).length ≤ c.vars.length := by
    intro x
    exact List.length_filter_le _ _
  have hsel : select_unassigned_variable c D a =
      if (mrv_loop D a c.vars 1000000 []).2.length = 1
      then (mrv_loop D a c.vars 1000000 []).2.head?
      else degree_loop c (mrv_loop D a c.vars 1000000 []).2 1000000 none := rfl
  by_cases hlen : (mrv_loop D a c.vars 1000000 []).2.length = 1
  · rw [hsel, if_pos hlen]
    cases hl : (mrv_loop D a c.vars 1000000 []).2 with
    | nil => rw [hl] at hne; exact absurd rfl hne
    | cons y ys =>
      have hys : ys = [] := by
        rw [hl] at hlen
        simpa using hlen
      subst hys
      have hy : y ∈ (mrv_loop D a c.vars 1000000 []).2 := by
        rw [hl]
        exact List.mem_cons_self _ _
      have hyv : y ∈ c.vars := by
        rcases mrv_loop_mem D a c.vars 1000000 [] y hy with h | h
        · exact absurd h (List.not_mem_nil _)
        · exact h.1
      obtain ⟨hyk, hysize⟩ := i3 y hy
      refine ⟨y, rfl, hyv, hyk, ?_, ?_⟩
      · intro u hu huk
        rw [hysize]
        exact i2 u hu huk
      · intro u hu huk htie
        have hu2 : u ∈ (mrv_loop D a c.vars 1000000 []).2 :=
          i4 u (Or.inr ⟨hu, huk⟩) (by rw [htie, hysize])
        rw [hl] at hu2
        rcases List.mem_singleton.1 hu2 with rfl
        exact Nat.le_refl _
  · rw [hsel, if_neg hlen]
    obtain ⟨j1, j2⟩ := degree_loop_spec c (mrv_loop D a c.vars 1000000 []).2
      1000000 none (fun b hb => absurd hb (by simp))
    obtain ⟨x0, hx0⟩ := List.exists_mem_of_ne_nil _ hne
    obtain ⟨v, hv⟩ := j2 (Or.inl ⟨x0, hx0, Nat.lt_of_le_of_lt (hnb x0) hvars⟩)
    have hvmem : v ∈ (mrv_loop D a c.vars 1000000 []).2 := by
      rcases degree_loop_mem c _ _ _ _ hv with h | h
      · exact absurd h (by simp)
      · exact h
    have hvv : v ∈ c.vars := by
      rcases mrv_loop_mem D a c.vars 1000000 [] v hvmem with h | h
      · exact absurd h (List.not_mem_nil _)
      · exact h.1
    obtain ⟨hvk, hvsize⟩ := i3 v hvmem
    obtain ⟨k1, k2⟩ := j1 v hv
    refine ⟨v, hv, hvv, hvk, ?_, ?_⟩
    · intro u hu huk
      rw [hvsize]
      exact i2 u hu huk
    · intro u hu huk htie
      have hu2 : u ∈ (mrv_loop D a c.vars 1000000 []).2 :=
        i4 u (Or.inr ⟨hu, huk⟩) (by rw [htie, hvsize])
      exact k2 u hu2

/-- C8 amended witness: on `cw5` with the empty assignment (domains after
node consistency: sizes 2, 1, 1 and neighbor counts 2, 1, 1), the selector
returns a variable of minimal domain size and minimal neighbor count among
the tied ones. -/
theorem select_unassigned_variable_mrv_degree_witness :
    ∃ v, select_unassigned_variable cw5 cw5D [] = some v ∧ v ∈ cw5.vars ∧
      v ∉ keys ([] : Assignment) ∧
      (∀ u ∈ cw5.vars, u ∉ keys ([] : Assignment) →
        (cw5D v).length ≤ (cw5D u).length) ∧
      (∀ u ∈ cw5.vars, u ∉ keys ([] : Assignment) →
        (cw5D u).length = (cw5D v).length →
        (neighbors cw5 v).length ≤ (neighbors cw5 u).length) :=
  select_unassigned_variable_mrv_degree cw5 cw5D [] vA3 (by decide)
    (by decide) (by decide) (by decide)

/-- A neighbor is one of the crossword's variables. -/
theorem neighbors_subset (c : Crossword) (v : Slot) :
    ∀ n ∈ neighbors c v, n ∈ c.vars :=
  fun n hn => (List.mem_filter.1 hn).1

/-- Node consistency keeps every word of the right length. -/
theorem enforce_keeps_word (c : Crossword) :
    ∀ (l : List Slot) (D : Domains) (v : Slot) (w : Word),
      w ∈ D v → w.length = v.length →
      w ∈ l.foldl (fun D var =>
        updateDom D var ((D var).filter (fun w => w.length == var.length))) D v := by
  intro l
  induction l with
  | nil =>
    intro D v w hw _
    exact hw
  | cons x rest ih =>
    intro D v w hw hlen
    rw [List.foldl_cons]
    apply ih _ v w _ hlen
    unfold updateDom
    by_cases hvx : v = x
    · rw [if_pos hvx]
      subst hvx
      exact List.mem_filter.2 ⟨hw, by simp [hlen]⟩
    · rw [if_neg hvx]
      exact hw

/-- `revise` keeps the component of a globally consistent assignment:
the neighbor's component of the same assignment supports it. -/
theorem revise_keeps (c : Crossword) (f : Slot → Word)
    (hcons : ∀ v1 ∈ c.vars, ∀ v2 ∈ c.vars, ∀ o : Nat × Nat,
      c.overlaps v1 v2 = some o →
      (f v1).getD o.1 '?' = (f v2).getD o.2 '?')
    (x y : Slot) (hx : x ∈ c.vars) (hy : y ∈ c.vars)
    (D : Domains) (hD : ∀ v ∈ c.vars, f v ∈ D v) :
    ∀ v ∈ c.vars, f v ∈ (revise c x y D).2 v := by
  intro v hv
  unfold revise
  by_cases hxy : x = y
  · rw [if_pos hxy]
    exact hD v hv
  · rw [if_neg hxy]
    cases ho : c.overlaps x y with
    | none => exact hD v hv
    | some o =>
      show f v ∈ updateDom D x ((D x).filter _) v
      unfold updateDom
      by_cases hvx : v = x
      · rw [if_pos hvx]
        subst hvx
        refine List.mem_filter.2 ⟨hD v hv, ?_⟩
        have hsup : (f y).getD o.2 '?' = (f v).getD o.1 '?' :=
          (hcons v hv y hy o ho).symm
        exact List.any_eq_true.2 ⟨f y, hD y hy,
          by simp only [beq_iff_eq]; exact hsup⟩
      · rw [if_neg hvx]
        exact hD v hv

/-- A word removed by `revise` had no support: the two variables overlap
and every word of the neighbor's domain disagrees at the overlap. -/
theorem revise_removed_unsupported (c : Crossword) (x y : Slot)
    (D : Domains) (w : Word) (hw : w ∈ D x)
    (hout : w ∉ (revise c x y D).2 x) :
    ∃ o : Nat × Nat, c.overlaps x y = some o ∧
      ∀ wy ∈ D y, wy.getD o.2 '?' ≠ w.getD o.1 '?' := by
  unfold revise at hout
  by_cases hxy : x = y
  · rw [if_pos hxy] at hout
    exact absurd hw hout
  · rw [if_neg hxy] at hout
    cases ho : c.overlaps x y with
    | none =>
      rw [ho] at hout
      exact absurd hw hout
    | some o =>
      rw [ho] at hout
      refine ⟨o, rfl, ?_⟩
      intro wy hwy heq
      apply hout
      show w ∈ updateDom D x ((D x).filter _) x
      unfold updateDom
      rw [if_pos rfl]
      refine List.mem_filter.2 ⟨hw, ?_⟩
      exact List.any_eq_true.2 ⟨wy, hwy, by simp only [beq_iff_eq]; exact heq⟩

/-- Arcs produced by the re-enqueue step come from the previous worklist
or pair the revised variable with a stale neighbor. -/
theorem mem_enqueue_arcs (x y : Slot) :
    ∀ (ns : List Slot) (arcs : List (Slot × Slot)) (p : Slot × Slot),
      p ∈ enqueue_arcs x y ns arcs → p ∈ arcs ∨ (p.1 = x ∧ p.2 ∈ ns) := by
  intro ns
  induction ns with
  | nil =>
    intro arcs p hp
    exact Or.inl hp
  | cons n rest ih =>
    intro arcs p hp
    have hp2 : p ∈ enqueue_arcs x y rest
        (if n ≠ y ∧ (x, n) ∉ arcs then arcs ++ [(x, n)] else arcs) := hp
    rcases ih _ p hp2 with hp' | hp'
    · by_cases hc : n ≠ y ∧ (x, n) ∉ arcs
      · rw [if_pos hc] at hp'
        rcases List.mem_append.1 hp' with h | h
        · exact Or.inl h
        · rcases List.mem_singleton.1 h with rfl
          exact Or.inr ⟨rfl, List.mem_cons_self _ _⟩
      · rw [if_neg hc] at hp'
        exact Or.inl hp'
    · exact Or.inr ⟨hp'.1, List.mem_cons_of_mem _ hp'.2⟩

/-- Arcs surviving a fold of `init_step` come from the accumulator or the
scanned pairs. -/
theorem mem_foldl_init_step :
    ∀ (l acc : List (Slot × Slot)) (p : Slot × Slot),
      p ∈ l.foldl init_step acc → p ∈ acc ∨ p ∈ l := by
  intro l
  induction l with
  | nil =>
    intro acc p hp
    exact Or.inl hp
  | cons q rest ih =>
    intro acc p hp
    rw [List.foldl_cons] at hp
    rcases ih _ p hp with hp' | hp'
    · unfold init_step at hp'
      by_cases hq : (q.2, q.1) ∉ acc
      · rw [if_pos hq] at hp'
        rcases List.mem_append.1 hp' with h | h
        · exact Or.inl h
        · rcases List.mem_singleton.1 h with rfl
          exact Or.inr (List.mem_cons_self _ _)
      · rw [if_neg hq] at hp'
        exact Or.inl hp'
    · exact Or.inr (List.mem_cons_of_mem _ hp')

/-- Both components of every arc of the default initial worklist are
crossword variables. -/
theorem initial_arcs_components (c : Crossword) :
    ∀ p ∈ initial_arcs c, p.1 ∈ c.vars ∧ p.2 ∈ c.vars := by
  intro p hp
  rw [initial_arcs_eq_foldl] at hp
  rcases mem_foldl_init_step _ _ _ hp with h | h
  · exact absurd h (List.not_mem_nil _)
  · unfold arc_pairs at h
    obtain ⟨v, hv, hmem⟩ := List.mem_flatMap.1 h
    obtain ⟨n, hn, rfl⟩ := List.mem_map.1 hmem
    exact ⟨hv, neighbors_subset c v n hn⟩

/-- Unfolding of one iteration of the `ac3` worklist loop: the constant
`self.domains[x] == 0` guard reduces away. -/
theorem ac3_loop_cons (c : Crossword) (sn : List Slot) (fuel : Nat)
    (x y : Slot) (rest : List (Slot × Slot)) (D : Domains) :
    ac3_loop c sn (fuel + 1) ((x, y) :: rest) D =
      if (revise c x y D).1 = true
      then ac3_loop c sn fuel (enqueue_arcs x y sn rest) (revise c x y D).2
      else ac3_loop c sn fuel rest (revise c x y D).2 := rfl

/-- The `ac3` worklist loop keeps the components of a globally consistent
assignment in the domains, whatever revisions it performs. -/
theorem ac3_loop_keeps (c : Crossword) (f : Slot → Word)
    (hcons : ∀ v1 ∈ c.vars, ∀ v2 ∈ c.vars, ∀ o : Nat × Nat,
      c.overlaps v1 v2 = some o →
      (f v1).getD o.1 '?' = (f v2).getD o.2 '?')
    (sn : List Slot) (hsn : ∀ n ∈ sn, n ∈ c.vars) :
    ∀ (fuel : Nat) (arcs : List (Slot × Slot)),
      (∀ p ∈ arcs, p.1 ∈ c.vars ∧ p.2 ∈ c.vars) →
      ∀ D : Domains, (∀ v ∈ c.vars, f v ∈ D v) →
      ∀ v ∈ c.vars, f v ∈ (ac3_loop c sn fuel arcs D).2 v := by
  intro fuel
  induction fuel with
  | zero =>
    intro arcs _ D hD v hv
    exact hD v hv
  | succ fuel ih =>
    intro arcs harcs D hD v hv
    cases arcs with
    | nil => exact hD v hv
    | cons p rest =>
      obtain ⟨px, py⟩ := p
      have hpx : px ∈ c.vars := (harcs (px, py) (List.mem_cons_self _ _)).1
      have hpy : py ∈ c.vars := (harcs (px, py) (List.mem_cons_self _ _)).2
      have hrest : ∀ q ∈ rest, q.1 ∈ c.vars ∧ q.2 ∈ c.vars :=
        fun q hq => harcs q (List.mem_cons_of_mem _ hq)
      have hD' : ∀ u ∈ c.vars, f u ∈ (revise c px py D).2 u :=
        revise_keeps c f hcons px py hpx hpy D hD
      rw [ac3_loop_cons]
      by_cases hrev : (revise c px py D).1 = true
      · rw [if_pos hrev]
        apply ih _ _ _ hD' v hv
        intro q hq
        rcases mem_enqueue_arcs px py sn rest q hq with h | h
        · exact hrest q h
        · exact ⟨h.1 ▸ hpx, hsn _ h.2⟩
      · rw [if_neg hrev]
        exact ih rest hrest _ hD' v hv

/-- C4: pruning is sound.  Every word removed by node consistency had the
wrong length; every word removed by `revise` had no supporting word in the
neighbor's current domain at the overlap; consequently the components of
any complete globally-consistent assignment over the initial domains
survive `enforce_node_consistency` followed by `ac3` (any fuel), so such a
solution still exists over the pruned domains. -/
theorem pruning_preserves_solutions (c : Crossword) (f : Slot → Word)
    (hsol : SolutionFor c f) (fuel : Nat) :
    (∀ (v : Slot), ∀ w ∈ c.words,
      w ∉ enforce_node_consistency c (initialDomains c) v →
        w.length ≠ v.length) ∧
    (∀ (x y : Slot) (D : Domains), ∀ w ∈ D x, w ∉ (revise c x y D).2 x →
      ∃ o : Nat × Nat, c.overlaps x y = some o ∧
        ∀ wy ∈ D y, wy.getD o.2 '?' ≠ w.getD o.1 '?') ∧
    (∀ v ∈ c.vars,
      f v ∈ (ac3 c fuel (enforce_node_consistency c (initialDomains c))).2 v) := by
  obtain ⟨hmem, hlen, hdist, hcons⟩ := hsol
  refine ⟨?_, ?_, ?_⟩
  · intro v w hw hout heq
    exact hout (enforce_keeps_word c c.vars (initialDomains c) v w hw heq)
  · intro x y D w hw hout
    exact revise_removed_unsupported c x y D w hw hout
  · have h1 : ∀ v ∈ c.vars,
        f v ∈ enforce_node_consistency c (initialDomains c) v := by
      intro v hv
      exact enforce_keeps_word c c.vars (initialDomains c) v (f v)
        (hmem v hv) (hlen v hv)
    unfold ac3
    cases hlast : c.vars.getLast? with
    | none =>
      exact ac3_loop_keeps c f hcons [] (fun n hn => absurd hn (List.not_mem_nil _))
        fuel (initial_arcs c) (initial_arcs_components c) _ h1
    | some lv =>
      exact ac3_loop_keeps c f hcons (neighbors c lv) (neighbors_subset c lv)
        fuel (initial_arcs c) (initial_arcs_components c) _ h1

/-- C4 witness: on the solvable crossword `cw4` the assignment sending
`vA3` to "cat" and `vD4` to "crow" is a complete consistent solution, and
both of its words survive node consistency and `ac3`. -/
theorem pruning_preserves_solutions_witness :
    (∀ (v : Slot), ∀ w ∈ cw4.words,
      w ∉ enforce_node_consistency cw4 (initialDomains cw4) v →
        w.length ≠ v.length) ∧
    (∀ (x y : Slot) (D : Domains), ∀ w ∈ D x, w ∉ (revise cw4 x y D).2 x →
      ∃ o : Nat × Nat, cw4.overlaps x y = some o ∧
        ∀ wy ∈ D y, wy.getD o.2 '?' ≠ w.getD o.1 '?') ∧
    (∀ v ∈ cw4.vars,
      (fun u => if u = vA3 then cat else crow) v ∈
        (ac3 cw4 10 (enforce_node_consistency cw4 (initialDomains cw4))).2 v) :=
  pruning_preserves_solutions cw4 (fun u => if u = vA3 then cat else crow)
    (by decide) 10

end AICrossword
